import Mathlib

/-!
# Verification of the prefer.go configuration loader

Shallow embedding of the core of the `prefer` package (path location,
deep merge, file loading via a line scanner, the watch state machine and
standard-path initialisation), together with theorems settling the frozen
claims about its specification.

Conventions: Go byte slices are `List Nat`, Go strings are `String` or
`List Char` where character-level reasoning is needed, Go maps
`map[string]interface{}` are association lists `List (String × GoValue)`
whose key lists are duplicate-free (the Go map invariant), and Go's
nondeterministic map iteration order is an explicitly quantified
enumeration parameter.  Fallible Go functions return `Except String` or
`Option`.
-/

namespace Prefer

/-! ## Locating configuration files (`FileLoader.Locate`, loaders.go)

The filesystem is abstracted by `fs : String → Bool`, the boolean that
`checkFileExists` computes from `os.Stat` (`true` when the stat succeeds
or fails with an error other than "does not exist").  The registered
extension set (`defaultSerializers`) is iterated by a Go `range` over a
map, so the extension order is an arbitrary enumeration `exts`; the claims
quantify over it. -/

/-- Model of Go `path.IsAbs`: a path is absolute when it starts with `/`.
Go strings are byte slices; we inspect the first character. -/
def isAbsPath (s : String) : Bool :=
  match s.toList with
  | '/' :: _ => true
  | _ => false

/-- Model of `path.Join(directory, identifier)` as used by `Locate`.
(Go's `path.Join` additionally cleans the result; the claims under
verification only concern the search order, which is independent of the
cleaning, so the join is modelled as plain separator concatenation.) -/
def pathJoin (d id : String) : String := d ++ "/" ++ id

/-- The inner loop of `Locate`: try `base + extension` for each registered
extension, returning the first hit. -/
def extSearch (fs : String → Bool) (base : String) : List String → Option String
  | [] => none
  | e :: rest =>
    if fs (base ++ e) then some (base ++ e) else extSearch fs base rest

/-- The outer loop of `Locate` over `GetStandardPaths()`: for each directory,
first `path.Join(directory, identifier)` as-is, then each extension. -/
def stdSearch (fs : String → Bool) (id : String) (exts : List String) :
    List String → Option String
  | [] => none
  | d :: rest =>
    let p := pathJoin d id
    if fs p then some p
    else
      match extSearch fs p exts with
      | some r => some r
      | none => stdSearch fs id exts rest

/-- The absolute-path preamble of `Locate`: the identifier itself, then the
identifier with each extension appended. -/
def absSearch (fs : String → Bool) (id : String) (exts : List String) : Option String :=
  if fs id then some id else extSearch fs id exts

/-- The `NotFound` message returned by `Locate`. -/
def locateErrMsg : String := "Could not find a configuration in the given location."

/-- Model of `FileLoader.Locate` (loaders.go:255-290): absolute identifiers are tried
directly (falling through on no hit), then the standard-path loop runs,
and `NotFound` is returned when nothing matched. -/
def locate (fs : String → Bool) (dirs exts : List String) (id : String) :
    Except String String :=
  match (if isAbsPath id then absSearch fs id exts else none) with
  | some r => .ok r
  | none =>
    match stdSearch fs id exts dirs with
    | some r => .ok r
    | none => .error locateErrMsg

/-- The candidate paths `Locate` examines for one directory, in order:
the exact join first, then one candidate per extension. -/
def dirCandidates (exts : List String) (id d : String) : List String :=
  pathJoin d id :: exts.map (fun e => pathJoin d id ++ e)

/-- All candidate paths of the standard-path loop, in examination order. -/
def stdCandidates (dirs exts : List String) (id : String) : List String :=
  dirs.flatMap (dirCandidates exts id)

theorem extSearch_eq_find? (fs : String → Bool) (base : String) (exts : List String) :
    extSearch fs base exts = (exts.map (fun e => base ++ e)).find? fs := by
  induction exts with
  | nil => rfl
  | cons e rest ih =>
    by_cases h : fs (base ++ e) = true
    · simp [extSearch, h, List.find?]
    · simp only [Bool.not_eq_true] at h
      simp [extSearch, h, List.find?, ih]

theorem stdSearch_eq_find? (fs : String → Bool) (id : String) (exts dirs : List String) :
    stdSearch fs id exts dirs = (stdCandidates dirs exts id).find? fs := by
  induction dirs with
  | nil => rfl
  | cons d rest ih =>
    have hsplit : stdCandidates (d :: rest) exts id =
        dirCandidates exts id d ++ stdCandidates rest exts id := by
      simp [stdCandidates]
    rw [hsplit, List.find?_append, ← ih]
    by_cases h : fs (pathJoin d id) = true
    · rw [dirCandidates, List.find?_cons_of_pos _ h]
      simp only [stdSearch, h, if_true]
      rfl
    · rw [dirCandidates, List.find?_cons_of_neg _ (by simp [h])]
      simp only [stdSearch, h, Bool.false_eq_true, if_false]
      rw [← extSearch_eq_find?]
      cases hx : extSearch fs (pathJoin d id) exts with
      | none => simp [hx]
      | some r => simp [hx]

theorem stdSearch_append_of_hit (fs : String → Bool) (id : String)
    (exts ds1 ds2 : List String)
    (h : ∃ c ∈ stdCandidates ds1 exts id, fs c = true) :
    stdSearch fs id exts (ds1 ++ ds2) = stdSearch fs id exts ds1 := by
  rw [stdSearch_eq_find?, stdSearch_eq_find?]
  have hsplit : stdCandidates (ds1 ++ ds2) exts id =
      stdCandidates ds1 exts id ++ stdCandidates ds2 exts id := by
    simp [stdCandidates]
  rw [hsplit, List.find?_append]
  obtain ⟨c, hc, hfs⟩ := h
  have : (stdCandidates ds1 exts id).find? fs ≠ none := by
    intro hnone
    have := List.find?_eq_none.mp hnone c hc
    simp [hfs] at this
  cases hfind : (stdCandidates ds1 exts id).find? fs with
  | none => exact absurd hfind this
  | some r => rfl

theorem locate_of_not_abs (fs : String → Bool) (dirs exts : List String) (id : String)
    (h : isAbsPath id = false) :
    locate fs dirs exts id =
      match (stdCandidates dirs exts id).find? fs with
      | some r => .ok r
      | none => .error locateErrMsg := by
  rw [locate, h]
  simp only [Bool.false_eq_true, if_false]
  rw [stdSearch_eq_find?]

/-- C1: for a non-absolute identifier, `FileLoader.Locate` walks the standard
directories as the outer loop and the registered extensions as the inner
loop (exact join first, then each extension candidate) and returns the
first existing candidate; an earlier directory with any match preempts
every candidate — in particular the exact match — of every later
directory; and when no candidate exists it fails with the `NotFound`
error. -/
theorem locate_std_order (fs : String → Bool) (dirs exts : List String) (id : String)
    (h : isAbsPath id = false) :
    (locate fs dirs exts id =
      match (stdCandidates dirs exts id).find? fs with
      | some r => .ok r
      | none => .error locateErrMsg)
    ∧ (∀ ds1 ds2, dirs = ds1 ++ ds2 →
        (∃ c ∈ stdCandidates ds1 exts id, fs c = true) →
        locate fs dirs exts id = locate fs ds1 exts id)
    ∧ (locate fs dirs exts id = .error locateErrMsg ↔
        ∀ c ∈ stdCandidates dirs exts id, fs c = false) := by
  refine ⟨locate_of_not_abs fs dirs exts id h, ?_, ?_⟩
  · intro ds1 ds2 hsplit hhit
    subst hsplit
    rw [locate, locate, h]
    simp only [Bool.false_eq_true, if_false]
    rw [stdSearch_append_of_hit fs id exts ds1 ds2 hhit]
  · rw [locate_of_not_abs fs dirs exts id h]
    cases hfind : (stdCandidates dirs exts id).find? fs with
    | none =>
      simp only [true_iff]
      intro c hc
      have := List.find?_eq_none.mp hfind c hc
      simpa using this
    | some r =>
      simp only [reduceCtorEq, false_iff, not_forall]
      have hmem := List.mem_of_find?_eq_some hfind
      have hr := List.find?_some hfind
      exact ⟨r, hmem, by simp [hr]⟩

theorem locate_std_order_witness :
    isAbsPath "config" = false ∧
    locate (fun c => c == "/a/config.json") ["/a", "/b"] [".json"] "config" =
      .ok "/a/config.json" := by
  constructor
  · decide
  · rw [(locate_std_order (fun c => c == "/a/config.json") ["/a", "/b"] [".json"]
      "config" (by decide)).1]
    rfl

/-! ## DeepMerge and ConfigBuilder.Build (pathing.go)

A Go `interface{}` value inside a `map[string]interface{}` GenericTree is a
scalar, a sequence, or a nested string-keyed map; the maps are association
lists whose key lists are duplicate-free (the Go map invariant, stated as a
hypothesis where a proof needs it).  Go iterates `override` in an
unspecified map order; the model iterates the association list in place,
and the proved per-key characterisation is order-independent, so nothing
depends on that choice. -/

inductive GoValue where
  | vStr (s : String)
  | vInt (n : Int)
  | vBool (b : Bool)
  | vSeq (xs : List GoValue)
  | tree (m : List (String × GoValue))

/-- A Go `map[string]interface{}`. -/
abbrev GoMap := List (String × GoValue)

/-- Go map read `m[k]` (with the `exists` flag folded into the `Option`). -/
def lookupGo : GoMap → String → Option GoValue
  | [], _ => none
  | (k0, v0) :: rest, k => if k0 = k then some v0 else lookupGo rest k

/-- Go map write `m[k] = v`: replace the binding when present, else add it. -/
def insertGo : GoMap → String → GoValue → GoMap
  | [], k, v => [(k, v)]
  | (k0, v0) :: rest, k, v =>
    if k0 = k then (k, v) :: rest else (k0, v0) :: insertGo rest k v

mutual

/-- Model of `DeepMerge(base, override)` (pathing.go:71-93): start from a copy of
`base` and fold the entries of `override` into it, assigning each key the
value `mergedValue` computes from the accumulated entry and the override
entry. -/
def deepMerge : GoMap → GoMap → GoMap
  | result, [] => result
  | result, (k, v) :: rest =>
    deepMerge (insertGo result k (mergedValue (lookupGo result k) v)) rest
termination_by _ o => sizeOf o

/-- The value `DeepMerge` assigns for one override entry: when the existing
value and the override value are both maps, their recursive merge;
otherwise the override value replaces the entry wholesale. -/
def mergedValue : Option GoValue → GoValue → GoValue
  | some (GoValue.tree bm), GoValue.tree om => GoValue.tree (deepMerge bm om)
  | _, v => v
termination_by _ v => sizeOf v

end

/-- The per-key value `DeepMerge` is claimed to produce, as a function of the
two looked-up values: absent override keys keep the base reading, present
ones read back as `mergedValue`. -/
def mergeSpec (b : Option GoValue) : Option GoValue → Option GoValue
  | none => b
  | some v => some (mergedValue b v)

theorem lookupGo_insertGo (m : GoMap) (k k' : String) (v : GoValue) :
    lookupGo (insertGo m k v) k' = if k = k' then some v else lookupGo m k' := by
  induction m with
  | nil => simp [insertGo, lookupGo]
  | cons kv rest ih =>
    obtain ⟨k0, v0⟩ := kv
    by_cases h : k0 = k
    · subst h
      by_cases h' : k0 = k' <;> simp [insertGo, lookupGo, h']
    · by_cases h' : k0 = k'
      · subst h'
        simp [insertGo, h, lookupGo, if_neg (fun he : k = k0 => h he.symm)]
      · simp [insertGo, lookupGo, h, h', ih]

theorem lookupGo_eq_none_of_not_mem (m : GoMap) (k : String)
    (h : k ∉ m.map Prod.fst) : lookupGo m k = none := by
  induction m with
  | nil => rfl
  | cons kv rest ih =>
    obtain ⟨k0, v0⟩ := kv
    simp only [List.map_cons, List.mem_cons, not_or] at h
    simp [lookupGo, Ne.symm h.1, ih h.2]

/-- Per-key characterisation of `DeepMerge`: the merged map reads back, at
every key, exactly `mergeSpec` of the two inputs' readings. -/
theorem lookupGo_deepMerge (override : GoMap) (base : GoMap) (k : String)
    (h : (override.map Prod.fst).Nodup) :
    lookupGo (deepMerge base override) k =
      mergeSpec (lookupGo base k) (lookupGo override k) := by
  induction override generalizing base with
  | nil => simp [deepMerge, lookupGo, mergeSpec]
  | cons kv rest ih =>
    obtain ⟨k0, v0⟩ := kv
    simp only [List.map_cons, List.nodup_cons] at h
    obtain ⟨hk0, hrest⟩ := h
    rw [deepMerge, ih _ hrest]
    by_cases hk : k0 = k
    · subst hk
      have hnone : lookupGo rest k0 = none := lookupGo_eq_none_of_not_mem rest k0 hk0
      have hhd : lookupGo ((k0, v0) :: rest) k0 = some v0 := by simp [lookupGo]
      rw [hnone, hhd]
      simp [mergeSpec, lookupGo_insertGo]
    · have htl : lookupGo ((k0, v0) :: rest) k = lookupGo rest k := by
        simp [lookupGo, hk]
      have hupd : lookupGo (insertGo base k0 (mergedValue (lookupGo base k0) v0)) k =
          lookupGo base k := by
        simp [lookupGo_insertGo, hk]
      rw [htl, hupd]

/-- Is the value a nested `map[string]interface{}`? -/
def isTree : GoValue → Bool
  | GoValue.tree _ => true
  | _ => false

theorem mergedValue_none (v : GoValue) : mergedValue none v = v := by
  cases v <;> simp [mergedValue]

theorem mergedValue_of_not_both_tree (bv ov : GoValue)
    (h : isTree bv = false ∨ isTree ov = false) :
    mergedValue (some bv) ov = ov := by
  cases bv <;> cases ov <;> simp_all [mergedValue, isTree]

theorem lookupGo_deepMerge_nil (m : GoMap) (h : (m.map Prod.fst).Nodup) (k : String) :
    lookupGo (deepMerge [] m) k = lookupGo m k := by
  rw [lookupGo_deepMerge m [] k h]
  cases hm : lookupGo m k with
  | none => rfl
  | some v => simp [mergeSpec, lookupGo, mergedValue_none]

/-- C2: `DeepMerge` is a pure merge whose result reads back, per key: the
base value for keys only in `base`, the override value for keys only in
`override`, the recursive merge for keys mapped to maps on both sides,
and exactly the override value for every other shared key; merging the
empty override is the identity and disjoint key sets merge to the union.
(The Go function writes only into a freshly allocated result map, so
`base` and `override` are never mutated; the embedding is the pure
function of the two inputs that this copy-then-fold computes.) -/
theorem deepMerge_merge_semantics (base override : GoMap)
    (h : (override.map Prod.fst).Nodup) :
    (∀ k v, lookupGo override k = none → lookupGo base k = some v →
      lookupGo (deepMerge base override) k = some v)
    ∧ (∀ k v, lookupGo base k = none → lookupGo override k = some v →
      lookupGo (deepMerge base override) k = some v)
    ∧ (∀ k bm om, lookupGo base k = some (GoValue.tree bm) →
      lookupGo override k = some (GoValue.tree om) →
      lookupGo (deepMerge base override) k = some (GoValue.tree (deepMerge bm om)))
    ∧ (∀ k bv ov, lookupGo base k = some bv → lookupGo override k = some ov →
      (isTree bv = false ∨ isTree ov = false) →
      lookupGo (deepMerge base override) k = some ov)
    ∧ deepMerge base [] = base
    ∧ ((∀ k, lookupGo base k = none ∨ lookupGo override k = none) →
      ∀ k, lookupGo (deepMerge base override) k =
        (lookupGo base k).or (lookupGo override k)) := by
  have hpt : ∀ k, lookupGo (deepMerge base override) k =
      mergeSpec (lookupGo base k) (lookupGo override k) :=
    fun k => lookupGo_deepMerge override base k h
  refine ⟨?_, ?_, ?_, ?_, by simp [deepMerge], ?_⟩
  · intro k v hov hb
    rw [hpt k, hov, hb]
    rfl
  · intro k v hb hov
    rw [hpt k, hov, hb]
    simp [mergeSpec, mergedValue_none]
  · intro k bm om hb hov
    rw [hpt k, hov, hb]
    simp [mergeSpec, mergedValue]
  · intro k bv ov hb hov hleaf
    rw [hpt k, hov, hb]
    simp [mergeSpec, mergedValue_of_not_both_tree bv ov hleaf]
  · intro hdisj k
    rw [hpt k]
    rcases hdisj k with hb | hov
    · rw [hb]
      cases hov : lookupGo override k with
      | none => rfl
      | some v => simp [mergeSpec, mergedValue_none]
    · rw [hov]
      cases hb : lookupGo base k with
      | none => rfl
      | some v => rfl

theorem deepMerge_merge_semantics_witness :
    (([("m", GoValue.tree [("y", GoValue.vInt 2)]), ("b", GoValue.vInt 3)] :
        GoMap).map Prod.fst).Nodup ∧
    lookupGo (deepMerge
      [("a", GoValue.vInt 1), ("m", GoValue.tree [("x", GoValue.vInt 1)])]
      [("m", GoValue.tree [("y", GoValue.vInt 2)]), ("b", GoValue.vInt 3)]) "m" =
      some (GoValue.tree (deepMerge [("x", GoValue.vInt 1)] [("y", GoValue.vInt 2)])) := by
  constructor
  · decide
  · exact (deepMerge_merge_semantics
      [("a", GoValue.vInt 1), ("m", GoValue.tree [("x", GoValue.vInt 1)])]
      [("m", GoValue.tree [("y", GoValue.vInt 2)]), ("b", GoValue.vInt 3)]
      (by decide)).2.2.1 "m" [("x", GoValue.vInt 1)] [("y", GoValue.vInt 2)] rfl rfl

/-- Model of `ConfigBuilder.Build` (pathing.go:143-155) over already-loaded source
data: fold `DeepMerge` left-to-right over the sources, starting from the
empty map and short-circuiting on a source load error. -/
def buildFold : GoMap → List (Except String GoMap) → Except String GoMap
  | merged, [] => .ok merged
  | merged, r :: rest =>
    match r with
    | .error e => .error e
    | .ok data => buildFold (deepMerge merged data) rest

/-- The result of `Build()` on a registered source list. -/
def build (sources : List (Except String GoMap)) : Except String GoMap :=
  buildFold [] sources

/-- C8: `Build` folds `DeepMerge` in registration order, so it is
order-sensitive: when two sources set a common leaf key to different
values, `[A, B]` yields B's value there and `[B, A]` yields A's (the two
readings differ), while keys untouched by one source keep the other
source's value in both orders. -/
theorem build_order_sensitive (a b : GoMap) (k : String) (va vb : GoValue)
    (hna : (a.map Prod.fst).Nodup) (hnb : (b.map Prod.fst).Nodup)
    (ha : lookupGo a k = some va) (hb : lookupGo b k = some vb)
    (hva : isTree va = false) (hvb : isTree vb = false) (hne : va ≠ vb) :
    (build [.ok a, .ok b] = .ok (deepMerge (deepMerge [] a) b)
      ∧ lookupGo (deepMerge (deepMerge [] a) b) k = some vb)
    ∧ (build [.ok b, .ok a] = .ok (deepMerge (deepMerge [] b) a)
      ∧ lookupGo (deepMerge (deepMerge [] b) a) k = some va)
    ∧ lookupGo (deepMerge (deepMerge [] a) b) k ≠
      lookupGo (deepMerge (deepMerge [] b) a) k
    ∧ (∀ k', lookupGo b k' = none →
      lookupGo (deepMerge (deepMerge [] a) b) k' = lookupGo a k')
    ∧ (∀ k', lookupGo a k' = none →
      lookupGo (deepMerge (deepMerge [] b) a) k' = lookupGo b k') := by
  have hmk : ∀ (x y : GoMap), (x.map Prod.fst).Nodup → (y.map Prod.fst).Nodup →
      ∀ k', lookupGo (deepMerge (deepMerge [] x) y) k' =
        mergeSpec (lookupGo x k') (lookupGo y k') := by
    intro x y hx hy k'
    rw [lookupGo_deepMerge y (deepMerge [] x) k' hy, lookupGo_deepMerge_nil x hx k']
  have hab : lookupGo (deepMerge (deepMerge [] a) b) k = some vb := by
    rw [hmk a b hna hnb k, ha, hb]
    simp [mergeSpec, mergedValue_of_not_both_tree va vb (Or.inl hva)]
  have hba : lookupGo (deepMerge (deepMerge [] b) a) k = some va := by
    rw [hmk b a hnb hna k, ha, hb]
    simp [mergeSpec, mergedValue_of_not_both_tree vb va (Or.inl hvb)]
  refine ⟨⟨by simp [build, buildFold], hab⟩, ⟨by simp [build, buildFold], hba⟩, ?_, ?_, ?_⟩
  · rw [hab, hba]
    intro hcon
    exact hne (Option.some.inj hcon).symm
  · intro k' hk'
    rw [hmk a b hna hnb k', hk']
    rfl
  · intro k' hk'
    rw [hmk b a hnb hna k', hk']
    rfl

theorem build_order_sensitive_witness :
    lookupGo [("k", GoValue.vInt 1)] "k" = some (GoValue.vInt 1) ∧
    lookupGo (deepMerge (deepMerge [] [("k", GoValue.vInt 1)]) [("k", GoValue.vInt 2)]) "k" =
      some (GoValue.vInt 2) ∧
    lookupGo (deepMerge (deepMerge [] [("k", GoValue.vInt 2)]) [("k", GoValue.vInt 1)]) "k" =
      some (GoValue.vInt 1) := by
  have hmain := build_order_sensitive [("k", GoValue.vInt 1)] [("k", GoValue.vInt 2)]
    "k" (GoValue.vInt 1) (GoValue.vInt 2) (by decide) (by decide) rfl rfl rfl rfl
    (by intro hcon; injection hcon with h; omega)
  exact ⟨rfl, hmain.1.2, hmain.2.1.2⟩

/-! ## Reading file content (`FileLoader.Load`, loaders.go:292-313)

`Load` resolves the identifier, opens the file and drains a
`bufio.Scanner` with the default `bufio.ScanLines` split function,
appending each token's bytes to the result.  The error value it returns
alongside the content is the one `os.Open` produced — `nil` on every path
that reaches the scanner loop — and `scanner.Err()` is never consulted.
File bytes are `List Nat`; `bufio.ScanLines` yields the bytes before each
newline byte 10 with one trailing 13 stripped (`dropCR`), and a final
unterminated nonempty remainder as a last token, also `dropCR`ed. -/

/-- The helper `dropCR` of `bufio.ScanLines`: drop one trailing carriage return. -/
def dropCR (bs : List Nat) : List Nat :=
  match bs.getLast? with
  | some 13 => bs.dropLast
  | _ => bs

/-- Split at the first newline byte (`bytes.IndexByte(data, 10)`): the bytes
before the first 10 and, when one occurs, the bytes after it. -/
def breakNL : List Nat → List Nat × Option (List Nat)
  | [] => ([], none)
  | b :: rest =>
    if b = 10 then ([], some rest)
    else (b :: (breakNL rest).1, (breakNL rest).2)

theorem breakNL_some_spec (c p r : List Nat) (h : breakNL c = (p, some r)) :
    c = p ++ 10 :: r ∧ (10 : Nat) ∉ p := by
  induction c generalizing p with
  | nil => simp [breakNL] at h
  | cons b rest ih =>
    by_cases hb : b = 10
    · subst hb
      rw [breakNL, if_pos rfl] at h
      injection h with hp hr
      injection hr with hr
      subst hp; subst hr
      simp
    · rw [breakNL, if_neg hb] at h
      injection h with hp hr
      have hpair : breakNL rest = ((breakNL rest).1, some r) := by
        rw [← hr]
      have hrec := ih (breakNL rest).1 hpair
      subst hp
      refine ⟨by rw [List.cons_append, ← hrec.1], ?_⟩
      simp only [List.mem_cons, not_or]
      exact ⟨Ne.symm hb, hrec.2⟩

theorem breakNL_none_spec (c : List Nat) (h : (breakNL c).2 = none) :
    (breakNL c).1 = c ∧ (10 : Nat) ∉ c := by
  induction c with
  | nil => simp [breakNL]
  | cons b rest ih =>
    by_cases hb : b = 10
    · subst hb
      rw [breakNL, if_pos rfl] at h
      simp at h
    · rw [breakNL, if_neg hb] at h ⊢
      simp only at h ⊢
      have hrec := ih h
      refine ⟨by rw [hrec.1], ?_⟩
      simp only [List.mem_cons, not_or]
      exact ⟨Ne.symm hb, hrec.2⟩

theorem breakNL_no_nl (c : List Nat) (h : (10 : Nat) ∉ c) : breakNL c = (c, none) := by
  induction c with
  | nil => rfl
  | cons b rest ih =>
    simp only [List.mem_cons, not_or] at h
    simp [breakNL, Ne.symm h.1, ih h.2]

/-- The token stream of `bufio.ScanLines`: tokens are produced before each
newline, and an unterminated nonempty tail yields one final token. -/
def scanAll : List Nat → List (List Nat)
  | [] => []
  | b :: rest =>
    match hb : breakNL (b :: rest) with
    | (line, some r) => dropCR line :: scanAll r
    | (line, none) => [dropCR line]
termination_by data => data.length
decreasing_by
  have hspec := breakNL_some_spec (b :: rest) line r hb
  simp only [hspec.1, List.length_append, List.length_cons]
  omega

/-- The byte slice `FileLoader.Load` accumulates by appending every
scanner token. -/
def loadedBytes (data : List Nat) : List Nat := (scanAll data).flatten

theorem scanAll_cons_some (b : Nat) (rest line r : List Nat)
    (hb : breakNL (b :: rest) = (line, some r)) :
    scanAll (b :: rest) = dropCR line :: scanAll r := by
  rw [scanAll]
  split
  · rename_i line' r' hb'
    rw [hb] at hb'
    injection hb' with h1 h2
    injection h2 with h2
    rw [← h1, ← h2]
  · rename_i line' hb'
    rw [hb] at hb'
    injection hb' with h1 h2
    simp at h2

theorem scanAll_cons_none (b : Nat) (rest line : List Nat)
    (hb : breakNL (b :: rest) = (line, none)) :
    scanAll (b :: rest) = [dropCR line] := by
  rw [scanAll]
  split
  · rename_i line' r' hb'
    rw [hb] at hb'
    injection hb' with h1 h2
    simp at h2
  · rename_i line' hb'
    rw [hb] at hb'
    injection hb' with h1 h2
    rw [← h1]

theorem scanAll_no_nl (c : List Nat) (hne : c ≠ []) (h : (10 : Nat) ∉ c) :
    scanAll c = [dropCR c] := by
  cases c with
  | nil => exact absurd rfl hne
  | cons b rest =>
    exact scanAll_cons_none b rest (b :: rest) (breakNL_no_nl (b :: rest) h)

theorem dropCR_length_le (bs : List Nat) : (dropCR bs).length ≤ bs.length := by
  rw [dropCR]
  split
  · simp [List.length_dropLast]
  · exact le_refl _

theorem dropCR_of_not_cr (bs : List Nat) (h : bs.getLast? ≠ some 13) :
    dropCR bs = bs := by
  rw [dropCR]
  split
  · rename_i hlast
    exact absurd hlast h
  · rfl

theorem loadedBytes_length_le (c : List Nat) :
    (loadedBytes c).length + c.count 10 ≤ c.length := by
  rw [loadedBytes]
  induction c using scanAll.induct with
  | case1 =>
    simp [scanAll]
  | case2 b rest line r hb ih =>
    obtain ⟨hsplit, hnomem⟩ := breakNL_some_spec (b :: rest) line r hb
    rw [scanAll_cons_some b rest line r hb, hsplit]
    have h1 := dropCR_length_le line
    have h0 : line.count 10 = 0 := List.count_eq_zero.mpr hnomem
    simp only [List.flatten_cons, List.length_append, List.count_append,
      List.count_cons_self, List.length_cons]
    omega
  | case3 b rest line hb =>
    obtain ⟨hfst, hnomem⟩ := breakNL_none_spec (b :: rest) (by rw [hb])
    rw [hb] at hfst
    simp only at hfst
    rw [scanAll_cons_none b rest line hb, ← hfst]
    have h0 : line.count 10 = 0 := List.count_eq_zero.mpr (hfst ▸ hnomem)
    have h1 := dropCR_length_le line
    simp only [List.flatten_cons, List.flatten_nil, List.append_nil]
    omega

/-- C10: the bytes `FileLoader.Load` returns are the concatenation of the
scanner's line tokens; content containing a newline comes back strictly
altered (so a multi-line file never round-trips), and newline-free
content that does not end in a carriage return is returned intact. -/
theorem loadedBytes_strips_newlines (c : List Nat) :
    loadedBytes c = (scanAll c).flatten
    ∧ ((10 : Nat) ∈ c → loadedBytes c ≠ c)
    ∧ ((10 : Nat) ∉ c → c.getLast? ≠ some 13 → loadedBytes c = c) := by
  refine ⟨rfl, ?_, ?_⟩
  · intro hmem hcon
    have hcount : 1 ≤ c.count 10 := List.one_le_count_iff.mpr hmem
    have hle := loadedBytes_length_le c
    rw [hcon] at hle
    omega
  · intro hmem hlast
    cases hc : c with
    | nil => simp [loadedBytes, scanAll]
    | cons b rest =>
      rw [loadedBytes, ← hc, scanAll_no_nl c (by rw [hc]; exact List.cons_ne_nil b rest) hmem]
      simp [dropCR_of_not_cr c hlast]

theorem loadedBytes_strips_newlines_witness :
    ((10 : Nat) ∈ [104, 105, 10, 121, 111] ∧
      loadedBytes [104, 105, 10, 121, 111] ≠ [104, 105, 10, 121, 111]) ∧
    ((10 : Nat) ∉ [104, 105] ∧ loadedBytes [104, 105] = [104, 105]) := by
  refine ⟨⟨by decide, (loadedBytes_strips_newlines [104, 105, 10, 121, 111]).2.1 (by decide)⟩,
    ⟨by decide, (loadedBytes_strips_newlines [104, 105]).2.2 (by decide) (by decide)⟩⟩

/-- The state of an opened file: the bytes the scanner can read before the
stream ends, and the read error (if any) that ended it.  `Load` never
inspects `scanner.Err()`, so `readErr` is never consulted. -/
structure OpenFile where
  bytesRead : List Nat
  readErr : Option String

/-- Model of `FileLoader.Load` (loaders.go:292-313): resolve via `Locate`
(outcome `locateRes`), return its error on failure; open the file
(outcome `openFile location`), return the open error on failure; then
drain the scanner and return the accumulated bytes together with the
error variable left over from `os.Open`, which is `nil` here. -/
def fileLoaderLoad (locateRes : Except String String)
    (openFile : String → Except String OpenFile) :
    Except String (String × List Nat) :=
  match locateRes with
  | .error e => .error e
  | .ok location =>
    match openFile location with
    | .error e => .error e
    | .ok f => .ok (location, loadedBytes f.bytesRead)

/-- C7 counterexample: with resolution and open succeeding but the read
failing after one byte (`readErr` set), `Load` returns the partially-read
content with a `nil` error instead of surfacing the read error. -/
theorem fileLoaderLoad_swallows_read_error :
    fileLoaderLoad (.ok "/etc/app.json")
      (fun _ => .ok { bytesRead := [97], readErr := some "input/output error" }) =
      .ok ("/etc/app.json", [97]) := by
  have h97 : loadedBytes [97] = [97] := by
    rw [loadedBytes, scanAll_no_nl [97] (by decide) (by decide)]
    rfl
  rw [fileLoaderLoad]
  simp only [h97]

/-- C7 amended: `Load` surfaces resolution failures and open failures
synchronously, but a read error during scanning is not surfaced — the
scanner output accumulated from the readable prefix is returned with a
`nil` error, whatever `readErr` is. -/
theorem fileLoaderLoad_error_modes (locateRes : Except String String)
    (openFile : String → Except String OpenFile) :
    (∀ e, locateRes = .error e → fileLoaderLoad locateRes openFile = .error e)
    ∧ (∀ loc e, locateRes = .ok loc → openFile loc = .error e →
      fileLoaderLoad locateRes openFile = .error e)
    ∧ (∀ loc f, locateRes = .ok loc → openFile loc = .ok f →
      fileLoaderLoad locateRes openFile = .ok (loc, loadedBytes f.bytesRead)) := by
  refine ⟨?_, ?_, ?_⟩
  · intro e he
    rw [he, fileLoaderLoad]
  · intro loc e hloc hopen
    rw [hloc, fileLoaderLoad, hopen]
  · intro loc f hloc hopen
    rw [hloc, fileLoaderLoad, hopen]

theorem fileLoaderLoad_error_modes_witness :
    ((.error "Could not find a configuration in the given location." :
        Except String String) =
      .error "Could not find a configuration in the given location.") ∧
    fileLoaderLoad (.error "Could not find a configuration in the given location.")
      (fun _ => .ok { bytesRead := [], readErr := none }) =
      .error "Could not find a configuration in the given location." :=
  ⟨rfl, (fileLoaderLoad_error_modes
    (.error "Could not find a configuration in the given location.")
    (fun _ => .ok { bytesRead := [], readErr := none })).1
    "Could not find a configuration in the given location." rfl⟩

/-! ## Serializer dispatch and the watch state machine (serializers.go,
prefer.go)

The external codecs' deserialize bodies are collaborators, abstracted as a
function `deser` from the resolved identifier and content to a result;
`NewSerializer`'s dispatch on the registered extension set is embedded
concretely.  The background loop of `Configuration.WatchWithDone`
processes one update notification at a time; a finite event history is a
list of the `loader.Load()` outcomes its cycles observe. -/

/-- Model of Go `path.Ext`: the suffix starting at the final dot of the
final slash-separated element, empty when that element has no dot. -/
def pathExt (s : String) : String :=
  let elem := (s.toList.reverse.takeWhile (fun ch => ch ≠ '/')).reverse
  if '.' ∈ elem then ⟨'.' :: (elem.reverse.takeWhile (fun ch => ch ≠ '.')).reverse⟩
  else ""

/-- The extensions registered in `defaultSerializers` (serializers.go
init, lines 122-130). -/
def defaultSerializerExts : List String := [".json", ".yml", ".yaml", ".xml", ".ini"]

/-- Model of `NewSerializer(identifier, content)` (serializers.go:32-41): look up the
identifier's extension in the registry, failing on unknown extensions. -/
def newSerializer (identifier : String) : Except String Unit :=
  if pathExt identifier ∈ defaultSerializerExts then .ok ()
  else .error ("No matching serializer for " ++ identifier)

/-- One reload cycle of the background loop in
`Configuration.WatchWithDone` (prefer.go:170-191): `loader.Load()`, then
`NewSerializer`, then `Deserialize`; each failing step hits `continue`
and publishes nothing (`none`); a fully successful cycle publishes the
deserialized destination. -/
def processCycle {D : Type} (deser : String → List Nat → Except String D)
    (loadRes : Except String (String × List Nat)) : Option D :=
  match loadRes with
  | .error _ => none
  | .ok (idf, content) =>
    match newSerializer idf with
    | .error _ => none
    | .ok _ =>
      match deser idf content with
      | .error _ => none
      | .ok d => some d

/-- The background watch loop over a finite prefix of update
notifications: every notification runs one cycle, failures are skipped
without exiting the loop, successes are published in order. -/
def watchLoop {D : Type} (deser : String → List Nat → Except String D) :
    List (Except String (String × List Nat)) → List D
  | [] => []
  | loadRes :: rest =>
    match processCycle deser loadRes with
    | none => watchLoop deser rest
    | some d => d :: watchLoop deser rest

/-- C3: a reload cycle failing at the Load, serializer-dispatch or
deserialize step publishes nothing for that cycle and does not terminate
the loop — the publish stream equals that of the remaining notifications —
and a later cycle whose three steps all succeed publishes its
destination. -/
theorem watchLoop_resilient {D : Type} (deser : String → List Nat → Except String D)
    (bad : Except String (String × List Nat))
    (hbad : (∃ e, bad = .error e)
      ∨ (∃ idf content e, bad = .ok (idf, content) ∧ newSerializer idf = .error e)
      ∨ (∃ idf content e, bad = .ok (idf, content) ∧ newSerializer idf = .ok () ∧
          deser idf content = .error e))
    (goodId : String) (goodContent : List Nat) (d : D)
    (hser : newSerializer goodId = .ok ())
    (hdes : deser goodId goodContent = .ok d)
    (rest : List (Except String (String × List Nat))) :
    watchLoop deser (bad :: rest) = watchLoop deser rest
    ∧ watchLoop deser (bad :: .ok (goodId, goodContent) :: rest) =
      d :: watchLoop deser rest := by
  have hnone : processCycle deser bad = none := by
    rcases hbad with ⟨e, he⟩ | ⟨idf, content, e, he, hser'⟩ |
      ⟨idf, content, e, he, hok, hdes'⟩
    · rw [he]; rfl
    · rw [he]
      simp [processCycle, hser']
    · rw [he]
      simp [processCycle, hok, hdes']
  have hgood : processCycle deser (.ok (goodId, goodContent)) = some d := by
    simp [processCycle, hser, hdes]
  constructor
  · simp [watchLoop, hnone]
  · simp [watchLoop, hnone, hgood]

theorem watchLoop_resilient_witness :
    newSerializer "/a/cfg.json" = .ok () ∧
    watchLoop (fun _ c => match c with | [49] => .ok 7 | _ => .error "invalid")
      [.error locateErrMsg, .ok ("/a/cfg.json", [49])] = [7] := by
  have h := watchLoop_resilient
    (fun _ c => match c with | [49] => (.ok 7 : Except String Nat) | _ => .error "invalid")
    (.error locateErrMsg) (Or.inl ⟨locateErrMsg, rfl⟩)
    "/a/cfg.json" [49] 7 rfl rfl []
  exact ⟨rfl, h.2⟩

/-- Outcomes of the setup steps `Configuration.WatchWithDone` performs in
program order (prefer.go:150-165): the synchronous initial `Reload`, the
`NewLoader` construction, and the loader's `WatchWithContext`
registration. -/
structure WatchSetupEnv (D : Type) where
  reloadRes : Except String D
  newLoaderRes : Except String Unit
  watchCtxRes : Except String Unit

/-- Externally observable setup actions of `WatchWithDone`, in the order
they occur. -/
inductive SetupEvent where
  | publishedDest
  | watcherStarted
  | backgroundSpawned
deriving DecidableEq

/-- Model of the `Configuration.WatchWithDone` setup (prefer.go:150-165): the returned
error (if any) and the observable actions performed before returning.
The synchronous publish `channel <- dest` happens only after a
successful `Reload` and before `WatchWithContext`; the background
consumer — the only code that ever closes the output channel — is
spawned only after a successful registration. -/
def methodWatchWithDone {D : Type} (env : WatchSetupEnv D) :
    Option String × List SetupEvent :=
  match env.reloadRes with
  | .error e => (some e, [])
  | .ok _ =>
    match env.newLoaderRes with
    | .error e => (some e, [SetupEvent.publishedDest])
    | .ok _ =>
      match env.watchCtxRes with
      | .error e => (some e, [SetupEvent.publishedDest])
      | .ok _ => (none,
          [SetupEvent.publishedDest, SetupEvent.watcherStarted,
            SetupEvent.backgroundSpawned])

/-- C4: when the initial synchronous `Reload` fails, `WatchWithDone`
returns exactly that error having performed no observable action — no
publish, no watcher, no background task; when it succeeds, the
destination is published exactly once, as the very first action,
before any watcher start. -/
theorem methodWatchWithDone_setup {D : Type} (env : WatchSetupEnv D) :
    (∀ e, env.reloadRes = .error e → methodWatchWithDone env = (some e, []))
    ∧ (∀ d, env.reloadRes = .ok d →
      (methodWatchWithDone env).2.head? = some SetupEvent.publishedDest
        ∧ (methodWatchWithDone env).2.count SetupEvent.publishedDest = 1) := by
  constructor
  · intro e he
    rw [methodWatchWithDone, he]
  · intro d hd
    rw [methodWatchWithDone, hd]
    cases env.newLoaderRes with
    | error e => simp [List.count_cons]
    | ok u =>
      cases env.watchCtxRes with
      | error e => simp [List.count_cons]
      | ok u' => simp [List.count_cons]

theorem methodWatchWithDone_setup_witness :
    ((⟨.ok 0, .ok (), .ok ()⟩ : WatchSetupEnv Nat).reloadRes = .ok 0) ∧
    (methodWatchWithDone (⟨.ok 0, .ok (), .ok ()⟩ :
        WatchSetupEnv Nat)).2.head? = some SetupEvent.publishedDest ∧
    (methodWatchWithDone (⟨.ok 0, .ok (), .ok ()⟩ :
        WatchSetupEnv Nat)).2.count SetupEvent.publishedDest = 1 := by
  have h := (methodWatchWithDone_setup (⟨.ok 0, .ok (), .ok ()⟩ :
    WatchSetupEnv Nat)).2 0 rfl
  exact ⟨rfl, h.1, h.2⟩

/-- What the package-level `WatchWithDone` call returns and what the
goroutine it spawned will do. -/
structure PkgWatchResult where
  returnedErr : Option String
  methodOutcome : Option String × List SetupEvent

/-- Package-level `WatchWithDone` (prefer.go:109-114): allocate the output
channel, spawn `configuration.WatchWithDone` on a new goroutine and
return `(channel, nil)` unconditionally. -/
def pkgWatchWithDone {D : Type} (env : WatchSetupEnv D) : PkgWatchResult :=
  { returnedErr := none, methodOutcome := methodWatchWithDone env }

/-- C9: the package-level `Watch`/`WatchWithDone` return a `nil` error for
every environment, an unresolvable identifier included; a setup failure
lives only in the spawned goroutine's outcome, which then performs no
publish and never spawns the background task — the only code that closes
the output channel — so the channel stays open and silent. -/
theorem pkgWatchWithDone_nil_error {D : Type} (env : WatchSetupEnv D) :
    (pkgWatchWithDone env).returnedErr = none
    ∧ (∀ e, env.reloadRes = .error e →
      (pkgWatchWithDone env).methodOutcome = (some e, [])) := by
  refine ⟨rfl, ?_⟩
  intro e he
  show methodWatchWithDone env = (some e, [])
  rw [methodWatchWithDone, he]

theorem pkgWatchWithDone_nil_error_witness :
    ((⟨.error locateErrMsg, .ok (), .ok ()⟩ :
        WatchSetupEnv Nat).reloadRes = .error locateErrMsg) ∧
    (pkgWatchWithDone (⟨.error locateErrMsg, .ok (), .ok ()⟩ :
        WatchSetupEnv Nat)).returnedErr = none ∧
    (pkgWatchWithDone (⟨.error locateErrMsg, .ok (), .ok ()⟩ :
        WatchSetupEnv Nat)).methodOutcome = (some locateErrMsg, []) := by
  have h := pkgWatchWithDone_nil_error (⟨.error locateErrMsg, .ok (), .ok ()⟩ :
    WatchSetupEnv Nat)
  exact ⟨rfl, h.1, h.2 locateErrMsg rfl⟩

/-! ## Standard-path initialisation (`init`, pathing.go:17-55)

`init` collects candidate directories, inserts each one's "/etc"
subdirectory and then the directory itself into the Go map `pathMap`, and
finally fills `standardPaths` by `range`-ing over that map — so
`standardPaths` is some enumeration of the key set, in the runtime's
unspecified map iteration order.  `getSystemPaths` is platform code
outside the analysed sources; its result is the parameter `sys`. -/

/-- The value of `filepath.Join("", "bin")`: `Join` drops empty elements and cleans, so
this is the three-character string `bin` — not `/bin`. -/
def goBinSuffix : List Char := ['b', 'i', 'n']

/-- The working-directory adjustment (pathing.go:25-29): when the final
four bytes of `wd` equal `filepath.Join("", "bin")`, drop them. -/
def stripBin (wd : List Char) : List Char :=
  if 4 < wd.length ∧ wd.drop (wd.length - 4) = goBinSuffix then
    wd.take (wd.length - 4)
  else wd

/-- C6 (code bug): the condition compares the four-byte suffix of `wd`
against the three-character string `filepath.Join("", "bin") = "bin"`,
which can never be equal, so no working directory is ever stripped — in
particular `/usr/bin` is used as-is instead of becoming `/usr`, contrary
to the code's own comment and to the claim. -/
theorem stripBin_never_strips (wd : List Char) :
    stripBin wd = wd ∧ stripBin "/usr/bin".toList = "/usr/bin".toList := by
  have hgen : ∀ w : List Char, stripBin w = w := by
    intro w
    rw [stripBin, if_neg]
    rintro ⟨hlen, heq⟩
    have h4 : (w.drop (w.length - 4)).length = 4 := by
      rw [List.length_drop]
      omega
    rw [heq] at h4
    simp [goBinSuffix] at h4
  exact ⟨hgen wd, hgen "/usr/bin".toList⟩

/-- Model of `filepath.Join(path, "/etc")` for the discovered path shapes: `Join`
cleans the concatenation, so the empty path yields "/etc", the current
directory "." yields "etc", and any other clean path gains a "/etc"
suffix. -/
def joinEtc (p : String) : String :=
  if p = "" then "/etc"
  else if p = "." then "etc"
  else p ++ "/etc"

/-- The discovered directory list (pathing.go:31-38): current directory,
working directory (unchanged, per `stripBin_never_strips`), the XDG
override list, then the system paths. -/
def discoveredPaths (wd : String) (xdg sys : List String) : List String :=
  [".", wd] ++ xdg ++ sys

/-- The root path is replaced by the empty string before joining
(pathing.go:41-43). -/
def normRoot (p : String) : String := if p = "/" then "" else p

/-- The insertion sequence into `pathMap` (pathing.go:40-50): for each
discovered path, its "/etc" subdirectory first, then — when nonempty —
the path itself. -/
def pathMapInsertions (wd : String) (xdg sys : List String) : List String :=
  (discoveredPaths wd xdg sys).flatMap (fun p =>
    joinEtc (normRoot p) ::
      (if 0 < (normRoot p).length then [normRoot p] else []))

/-- A Go map `range` enumeration of a key set: every key exactly once, in
an unspecified order.  `standardPaths` is whichever enumeration of
`pathMap`'s keys the runtime produces. -/
def isMapEnum (keys enum : List String) : Prop :=
  enum.Nodup ∧ (∀ x ∈ keys, x ∈ enum) ∧ (∀ x ∈ enum, x ∈ keys)

/-- The order claim C5 asserts for `standardPaths`: the discovered
directories in first-discovery order, each followed by its implicit
"/etc" subdirectory. -/
def claimedOrderC5 (wd : String) (xdg sys : List String) : List String :=
  (discoveredPaths wd xdg sys).flatMap (fun p =>
    normRoot p :: [joinEtc (normRoot p)])

/-- C5 amended: any `range` enumeration of `pathMap` — hence
`standardPaths` — is duplicate-free and contains exactly the discovered
directories' "/etc" subdirectories together with the nonempty discovered
directories themselves; its order is the runtime's unspecified map
iteration order, not the first-discovery order. -/
theorem standardPaths_nodup_members (wd : String) (xdg sys : List String)
    (enum : List String) (h : isMapEnum (pathMapInsertions wd xdg sys) enum) :
    enum.Nodup ∧
    ∀ x, x ∈ enum ↔ (∃ p ∈ discoveredPaths wd xdg sys,
      x = joinEtc (normRoot p) ∨ (0 < (normRoot p).length ∧ x = normRoot p)) := by
  obtain ⟨hnd, hsub1, hsub2⟩ := h
  refine ⟨hnd, fun x => ?_⟩
  have hx : x ∈ enum ↔ x ∈ pathMapInsertions wd xdg sys :=
    ⟨fun hh => hsub2 x hh, fun hh => hsub1 x hh⟩
  rw [hx, pathMapInsertions, List.mem_flatMap]
  apply exists_congr
  intro p
  apply and_congr_right
  intro hp
  by_cases hlen : 0 < (normRoot p).length
  · simp [hlen]
  · simp [hlen]

theorem standardPaths_nodup_members_witness :
    isMapEnum (pathMapInsertions "/app" [] []) ["etc", ".", "/app/etc", "/app"] ∧
    (["etc", ".", "/app/etc", "/app"] : List String).Nodup := by
  have henum : isMapEnum (pathMapInsertions "/app" [] [])
      ["etc", ".", "/app/etc", "/app"] := by
    constructor
    · decide
    · constructor
      · decide
      · decide
  exact ⟨henum, (standardPaths_nodup_members "/app" [] []
    ["etc", ".", "/app/etc", "/app"] henum).1⟩

/-- C5 counterexample: at `wd = "/app"` with empty XDG and system lists,
the list `["/app", "/app/etc", ".", "etc"]` is a valid map enumeration of
`pathMap`'s keys — so a possible value of `standardPaths` — yet differs
from the first-discovery order the claim asserts. -/
theorem standardPaths_order_not_guaranteed :
    isMapEnum (pathMapInsertions "/app" [] []) ["/app", "/app/etc", ".", "etc"] ∧
    (["/app", "/app/etc", ".", "etc"] : List String) ≠
      claimedOrderC5 "/app" [] [] := by
  constructor
  · refine ⟨by decide, by decide, by decide⟩
  · decide

end Prefer
